import Mathlib

/-! # ThreadPool (CCThreadPool.h)

A shallow embedding of the `ThreadPool` class declared in
`src/ThreadPool/CCThreadPool.h` and of its nested `ThreadSafeQueue<T>`.

* `ThreadSafeQueue` is defined inline in the header (lines 78-113); its four
  member functions are translated one to one.  The `std::queue<T> q` member is
  a list whose head is `q.front()`; `std::mutex mutex` makes each member
  function one atomic step, which is what a function on the state is.
* The data members of `ThreadPool` and its three inline getters are in the header
  and are embedded from it.  Its other member functions are only declared there:
  each is modelled from the specification, in a definition whose comment says so
  and quotes the sentences it follows.
* Threads are interleaved: a state of the system is a `Pool`, a step is one call
  on the pool or one transition of one worker (`Action`, `step`, `run`).
* An `int` is an integer, a `float` the rational number it denotes; the two
  conversions between them that the pool's interface needs are `intToFloat` and
  `floatToInt`.
-/

namespace ThreadPool

/-! ## ThreadSafeQueue (header lines 78-113) -/

/-- The class `ThreadSafeQueue<T>`: the member `std::queue<T> q`, front first. -/
structure ThreadSafeQueue (T : Type) where
  q : List T
  deriving DecidableEq, Repr

namespace ThreadSafeQueue

variable {T : Type}

/-- `bool push(T const & value)`: `q.push(value); return true;`. -/
def push (value : T) (self : ThreadSafeQueue T) : Bool × ThreadSafeQueue T :=
  (true, { q := self.q ++ [value] })

/-- `bool pop(T & v)`: `if (q.empty()) return false; v = q.front(); q.pop(); return true;`.
The reference argument `v` is passed in and handed back with the result. -/
def pop (v : T) (self : ThreadSafeQueue T) : Bool × T × ThreadSafeQueue T :=
  match self.q with
  | [] => (false, v, self)
  | front :: rest => (true, front, { q := rest })

/-- `bool empty()`: `return q.empty();` (a non-const member: the state is handed back). -/
def empty (self : ThreadSafeQueue T) : Bool × ThreadSafeQueue T :=
  (self.q.isEmpty, self)

/-- `size_t size()`: `return q.size();` (a non-const member: the state is handed back). -/
def size (self : ThreadSafeQueue T) : Nat × ThreadSafeQueue T :=
  (self.q.length, self)

/-- A default-constructed queue. -/
def new : ThreadSafeQueue T := { q := [] }

/-- Calls `push` once for each value of `values`, in order. -/
def pushAll (values : List T) (self : ThreadSafeQueue T) : List Bool × ThreadSafeQueue T :=
  match values with
  | [] => ([], self)
  | value :: more =>
    let r := push value self
    let rs := pushAll more r.2
    (r.1 :: rs.1, rs.2)

/-- Calls `pop` `n` times; every call starts from the same caller variable `v`.
Returns each call's return value together with the content of `v` after it. -/
def popN (n : Nat) (v : T) (self : ThreadSafeQueue T) : List (Bool × T) × ThreadSafeQueue T :=
  match n with
  | 0 => ([], self)
  | k + 1 =>
    let r := pop v self
    let rs := popN k v r.2.2
    ((r.1, r.2.1) :: rs.1, rs.2)

/-- One call on the queue by some client. -/
inductive Call (T : Type) where
  | push (value : T)
  | pop (v : T)
  deriving DecidableEq, Repr

/-- Runs a sequence of calls; returns the number of `push` calls made, the number of
`pop` calls that returned `true`, and the final queue. -/
def runCalls (calls : List (Call T)) (self : ThreadSafeQueue T) :
    Nat × Nat × ThreadSafeQueue T :=
  match calls with
  | [] => (0, 0, self)
  | Call.push value :: more =>
    let r := push value self
    let rs := runCalls more r.2
    (rs.1 + 1, rs.2.1, rs.2.2)
  | Call.pop v :: more =>
    let r := pop v self
    let rs := runCalls more r.2.2
    (rs.1, rs.2.1 + (if r.1 then 1 else 0), rs.2.2)

end ThreadSafeQueue

/-! ## The pool: data model (header lines 73-130)

The header declares the data members of `ThreadPool`; the bodies of its member
functions are in a translation unit that is not part of the sources at hand. The
members are embedded from the header, the behaviour of the member functions from
the specification (sections 3, 4.2, 4.3, 6 and 7). -/

/-- A queued `std::function<void(int tid)> *`, known by the identity of the callable. -/
abbrev Task := Nat

/-- Modelled from the spec: the error type is missing; these are the four errors of the
taxonomy in section 7. -/
inductive PoolError where
  | InvalidConfiguration
  | PoolClosed
  | WorkerCreationFailed
  | TaskFailure
  deriving DecidableEq, Repr

/-- Modelled from the spec: the worker loop is missing; these are the five states of the
worker state machine in section 4.2. -/
inductive WorkerState where
  | Starting
  | Idle
  | Busy (task : Task)
  | Stopping
  | Stopped
  deriving DecidableEq, Repr

/-- Slot `i` of the parallel vectors `_threads`, `_abortFlags`, `_idleFlags` and
`_initedFlags`: the thread and its abort flag. -/
structure Worker where
  state : WorkerState
  abort : Bool
  deriving DecidableEq, Repr

/-- `struct timeval`. -/
structure timeval where
  tv_sec : Int
  tv_usec : Int
  deriving DecidableEq, Repr

/-- The data members of `ThreadPool`. The four parallel vectors are one list of slots;
a `float` is the rational number it denotes. `submitted` and `executed` are ghost logs:
the tasks `pushTask` accepted, and the completed executions with the worker index. -/
structure Pool where
  workers : List Worker
  _taskQueue : ThreadSafeQueue Task
  _isDone : Bool
  _isStop : Bool
  _idleThreadNum : Int
  _minThreadNum : Int
  _maxThreadNum : Int
  _initedThreadNum : Int
  _lastShrinkTime : timeval
  _shrinkInterval : ℚ
  _shrinkStep : Int
  _stretchStep : Int
  submitted : List Task
  executed : List (Task × Nat)
  deriving DecidableEq

/-- `*_idleFlags[i]`: worker `i` is waiting for a task. -/
def Worker.idleFlag (w : Worker) : Bool :=
  match w.state with
  | WorkerState.Idle => true
  | _ => false

/-- `*_initedFlags[i]`: set on Starting → Idle, cleared on Stopping → Stopped. -/
def Worker.initedFlag (w : Worker) : Bool :=
  match w.state with
  | WorkerState.Idle => true
  | WorkerState.Busy _ => true
  | WorkerState.Stopping => true
  | _ => false

/-- The worker is executing a task. -/
def Worker.busyFlag (w : Worker) : Bool :=
  match w.state with
  | WorkerState.Busy _ => true
  | _ => false

/-- The worker's thread has exited and can be joined. -/
def Worker.stoppedFlag (w : Worker) : Bool :=
  match w.state with
  | WorkerState.Stopped => true
  | _ => false

/-- The worker has left its wait for good (Stopping or Stopped). -/
def Worker.leavingFlag (w : Worker) : Bool :=
  match w.state with
  | WorkerState.Stopping => true
  | WorkerState.Stopped => true
  | _ => false

/-- The task a worker holds while Busy. -/
def Worker.heldTask (w : Worker) : List Task :=
  match w.state with
  | WorkerState.Busy task => [task]
  | _ => []

/-- The tasks dequeued and not yet completed, by worker index. -/
def heldTasks : List Worker → List Task
  | [] => []
  | w :: ws => w.heldTask ++ heldTasks ws

/-- How many workers are Idle. -/
def idleCount (ws : List Worker) : Nat := ws.countP Worker.idleFlag

/-- How many workers are Busy. -/
def busyCount (ws : List Worker) : Nat := ws.countP Worker.busyFlag

namespace Pool

/-- `inline int getMinThreadNum() { return _minThreadNum; }` (header line 41). -/
def getMinThreadNum (p : Pool) : Int := p._minThreadNum

/-- `inline int getMaxThreadNum() { return _maxThreadNum; }` (header line 42). -/
def getMaxThreadNum (p : Pool) : Int := p._maxThreadNum

/-- `inline int getInitedThreadNum() { return _initedThreadNum; }` (header line 47). -/
def getInitedThreadNum (p : Pool) : Int := p._initedThreadNum

/-- Modelled from the spec: the body of `getIdleThreadNum` is missing; section 4.3 makes
it an accessor over the atomic idle counter. -/
def getIdleThreadNum (p : Pool) : Int := p._idleThreadNum

/-- Modelled from the spec: the body of `getTaskNum` is missing; section 6 makes it the
pending task count. -/
def getTaskNum (p : Pool) : Nat := (ThreadSafeQueue.size p._taskQueue).1

end Pool

/-- Modelled from the spec: the constructor's body is missing, and the specification fixes
no initial value for the members that the constructor's arguments do not determine; they
are given here. -/
structure Defaults where
  lastShrinkTime : timeval
  shrinkInterval : ℚ
  shrinkStep : Int
  stretchStep : Int
  deriving DecidableEq

/-- Modelled from the spec: a worker that was just created is Starting (section 4.2) and
has a fresh record, abort flag clear (section 4.3). -/
def freshWorker : Worker := { state := WorkerState.Starting, abort := false }

namespace Pool

/-- Modelled from the spec: the body of the constructor `ThreadPool(int minNum, int maxNum)`
is missing. Section 6: fails with `InvalidConfiguration` if
`minThreads ≤ 0 || minThreads > maxThreads`; section 7: rejected before any thread is
spawned; section 3: spawns `min` workers eagerly. The second component is the number of
worker threads the call spawned. -/
def construct (minNum maxNum : Int) (d : Defaults) : Except PoolError Pool × Nat :=
  if minNum ≤ 0 ∨ minNum > maxNum then
    (Except.error PoolError.InvalidConfiguration, 0)
  else
    (Except.ok {
        workers := List.replicate minNum.toNat freshWorker
        _taskQueue := ThreadSafeQueue.new
        _isDone := false
        _isStop := false
        _idleThreadNum := 0
        _minThreadNum := minNum
        _maxThreadNum := maxNum
        _initedThreadNum := minNum
        _lastShrinkTime := d.lastShrinkTime
        _shrinkInterval := d.shrinkInterval
        _shrinkStep := d.shrinkStep
        _stretchStep := d.stretchStep
        submitted := []
        executed := [] },
      minNum.toNat)

/-- Modelled from the spec: the body of `stretchPool(int count)` is missing. Section 4.3:
creates up to `min(count, maxThreads - initedThreads)` new workers, each with a fresh
record appended at the next index; increments `initedThreads` per success; on resource
exhaustion creates as many as possible. `avail` is the number of threads the system can
still create. -/
def stretchPool (count : Int) (avail : Nat) (p : Pool) : Pool :=
  let created := min (min count (p._maxThreadNum - p._initedThreadNum)).toNat avail
  { p with
    workers := p.workers ++ List.replicate created freshWorker
    _initedThreadNum := p._initedThreadNum + created }

/-- Modelled from the spec: the body of `pushTask` is missing. Section 4.3: fails with
`PoolClosed` once teardown has begun; if `idleThreads == 0 && initedThreads < maxThreads`
calls `stretchPool(stretchStep)` before enqueuing; pushes onto the queue. -/
def pushTask (runnable : Task) (avail : Nat) (p : Pool) : Except PoolError Pool :=
  if p._isDone || p._isStop then
    Except.error PoolError.PoolClosed
  else
    let p1 :=
      if p._idleThreadNum = 0 ∧ p._initedThreadNum < p._maxThreadNum then
        stretchPool p._stretchStep avail p
      else p
    Except.ok { p1 with
      _taskQueue := (ThreadSafeQueue.push runnable p1._taskQueue).2
      submitted := p1.submitted ++ [runnable] }

end Pool

/-- Modelled from the spec: the difference `now - lastShrinkTime` of section 4.3, in
seconds, microseconds included. -/
def secondsBetween (now last : timeval) : ℚ :=
  ((now.tv_sec - last.tv_sec : Int) : ℚ) + ((now.tv_usec - last.tv_usec : Int) : ℚ) / 1000000

/-- Modelled from the spec: the selection inside `shrinkPool` is missing. Walks the slots
from index `i`; removes the Idle workers that `pick` selects, at most `budget` of them. -/
def removeIdle (pick : Nat → Bool) : Nat → Nat → List Worker → List Worker
  | _, _, [] => []
  | budget, i, w :: ws =>
    if 0 < budget ∧ w.idleFlag = true ∧ pick i = true then
      removeIdle pick (budget - 1) (i + 1) ws
    else
      w :: removeIdle pick budget (i + 1) ws

namespace Pool

/-- Modelled from the spec: the body of `shrinkPool` is missing. Section 4.3: no-op
returning `false` if `now - lastShrinkTime < shrinkInterval`; otherwise selects up to
`shrinkStep` currently-idle workers (never below `minThreads` total), sets their abort
flags, waits for them to reach Stopped, joins and removes their records, updates
`lastShrinkTime`, returns `true` if any were removed. `now` is the clock reading and
`pick` says which idle workers the call is willing to select. -/
def shrinkPool (now : timeval) (pick : Nat → Bool) (p : Pool) : Bool × Pool :=
  if secondsBetween now p._lastShrinkTime < p._shrinkInterval then
    (false, p)
  else
    let budget := (min p._shrinkStep (p._initedThreadNum - p._minThreadNum)).toNat
    let kept := removeIdle pick budget 0 p.workers
    let removed := p.workers.length - kept.length
    (decide (0 < removed),
      { p with
        workers := kept
        _idleThreadNum := p._idleThreadNum - removed
        _initedThreadNum := p._initedThreadNum - removed
        _lastShrinkTime := now })

end Pool

/-- The value of `(float) n` for an `int n`: `n` rounded to a 24-bit significand, ties
to even. -/
def intToFloat (n : Int) : ℚ :=
  let a := n.natAbs
  let sh := (Nat.log2 a + 1) - 24
  let q := a / 2 ^ sh
  let r := a % 2 ^ sh
  let up := decide (2 ^ sh < 2 * r) || (decide (2 * r = 2 ^ sh) && decide (q % 2 = 1))
  let m := (if up then q + 1 else q) * 2 ^ sh
  if n < 0 then -(m : ℚ) else (m : ℚ)

/-- The value of `(int) s` for a floating-point `s`: the fraction is discarded (rounding
toward zero); outside the range of a 32-bit `int` the conversion is undefined. -/
def floatToInt (s : ℚ) : Option Int :=
  let t := Int.tdiv s.num s.den
  if -2147483648 ≤ t ∧ t ≤ 2147483647 then some t else none

namespace Pool

/-- Modelled from the spec: the body of `setShrinkInterval(int seconds)` is missing.
Section 4.3: reconfigures the elasticity policy. The parameter is the header's `int`,
the member `_shrinkInterval` the header's `float`. -/
def setShrinkInterval (seconds : Int) (p : Pool) : Pool :=
  { p with _shrinkInterval := intToFloat seconds }

/-- Modelled from the spec: the body of `setShrinkStep(int step)` is missing. -/
def setShrinkStep (step : Int) (p : Pool) : Pool :=
  { p with _shrinkStep := step }

/-- Modelled from the spec: the body of `setStretchStep(int step)` is missing. -/
def setStretchStep (step : Int) (p : Pool) : Pool :=
  { p with _stretchStep := step }

/-- The call `setShrinkInterval(s)` with a floating-point argument `s`: the argument is
converted to the `int` parameter of the declaration (header line 52) first. -/
def setShrinkIntervalWith (s : ℚ) (p : Pool) : Option Pool :=
  (floatToInt s).map (fun seconds => setShrinkInterval seconds p)

end Pool

/-! ## The pool: worker loop and teardown (specification sections 4.2 and 4.3)

Each function below is one transition of the worker state machine of section 4.2, taken
by the thread in slot `i`; it leaves the pool as it is when the transition is not
enabled. -/

namespace Pool

/-- Modelled from the spec: the worker loop (`setThread`) is missing. Starting → Idle:
on first scheduling the worker marks itself initialized and starts to wait; it is then
one of the waiting threads `_idleThreadNum` counts (header line 118). -/
def workerStart (i : Nat) (p : Pool) : Pool :=
  match p.workers[i]? with
  | none => p
  | some w =>
    if w.state = WorkerState.Starting then
      { p with
        workers := p.workers.set i { w with state := WorkerState.Idle }
        _idleThreadNum := p._idleThreadNum + 1 }
    else p

/-- Modelled from the spec: the worker loop is missing. Idle → Busy: on successfully
dequeuing a task; decrements the shared idle counter. -/
def workerTake (i : Nat) (p : Pool) : Pool :=
  match p.workers[i]? with
  | none => p
  | some w =>
    if w.state = WorkerState.Idle then
      let r := ThreadSafeQueue.pop 0 p._taskQueue
      if r.1 = true then
        { p with
          workers := p.workers.set i { w with state := WorkerState.Busy r.2.1 }
          _taskQueue := r.2.2
          _idleThreadNum := p._idleThreadNum - 1 }
      else p
    else p

/-- Modelled from the spec: the worker loop is missing. Busy → Idle: after the task
completes; increments the idle counter. The completed execution is logged. -/
def workerFinish (i : Nat) (p : Pool) : Pool :=
  match p.workers[i]? with
  | none => p
  | some w =>
    match w.state with
    | WorkerState.Busy task =>
      { p with
        workers := p.workers.set i { w with state := WorkerState.Idle }
        _idleThreadNum := p._idleThreadNum + 1
        executed := p.executed ++ [(task, i)] }
    | _ => p

/-- Modelled from the spec: the worker loop is missing. Idle → Stopping: when the worker
observes its own abort flag set, or observes the pool-wide done flag and an empty queue.
It stops waiting, so it leaves the idle count. -/
def workerNotice (i : Nat) (p : Pool) : Pool :=
  match p.workers[i]? with
  | none => p
  | some w =>
    if w.state = WorkerState.Idle ∧
        (w.abort = true ∨ (p._isDone = true ∧ (ThreadSafeQueue.empty p._taskQueue).1 = true)) then
      { p with
        workers := p.workers.set i { w with state := WorkerState.Stopping }
        _idleThreadNum := p._idleThreadNum - 1 }
    else p

/-- Modelled from the spec: the worker loop is missing. Stopping → Stopped: marks
`initialized = false` and exits; the thread becomes joinable. -/
def workerExit (i : Nat) (p : Pool) : Pool :=
  match p.workers[i]? with
  | none => p
  | some w =>
    if w.state = WorkerState.Stopping then
      { p with workers := p.workers.set i { w with state := WorkerState.Stopped } }
    else p

/-- Modelled from the spec: the body of `~ThreadPool()` is missing. Graceful teardown
(section 4.3) begins by setting the pool-wide done flag and waking all workers. -/
def destructorBegin (p : Pool) : Pool :=
  { p with _isDone := true }

/-- Modelled from the spec: the body of `~ThreadPool()` is missing. Graceful teardown
ends by joining all threads: the destructor returns once teardown has begun and every
worker thread has exited. -/
def destructorReturned (p : Pool) : Bool :=
  p._isDone && p.workers.all Worker.stoppedFlag

end Pool

/-- One atomic step of the system: a call on the pool by a client, or a transition of
the worker in slot `i`. -/
inductive Action where
  | pushTask (runnable : Task) (avail : Nat)
  | stretchPool (count : Int) (avail : Nat)
  | shrinkPool (now : timeval) (pick : Nat → Bool)
  | setShrinkInterval (seconds : Int)
  | setShrinkStep (step : Int)
  | setStretchStep (step : Int)
  | workerStart (i : Nat)
  | workerTake (i : Nat)
  | workerFinish (i : Nat)
  | workerNotice (i : Nat)
  | workerExit (i : Nat)
  | destructorBegin

/-- The pool after one step; a rejected `pushTask` leaves it as it was. -/
def step (a : Action) (p : Pool) : Pool :=
  match a with
  | Action.pushTask runnable avail =>
    match Pool.pushTask runnable avail p with
    | Except.ok p1 => p1
    | Except.error _ => p
  | Action.stretchPool count avail => Pool.stretchPool count avail p
  | Action.shrinkPool now pick => (Pool.shrinkPool now pick p).2
  | Action.setShrinkInterval seconds => Pool.setShrinkInterval seconds p
  | Action.setShrinkStep n => Pool.setShrinkStep n p
  | Action.setStretchStep n => Pool.setStretchStep n p
  | Action.workerStart i => Pool.workerStart i p
  | Action.workerTake i => Pool.workerTake i p
  | Action.workerFinish i => Pool.workerFinish i p
  | Action.workerNotice i => Pool.workerNotice i p
  | Action.workerExit i => Pool.workerExit i p
  | Action.destructorBegin => Pool.destructorBegin p

/-- The pool after a sequence of steps, first step first. -/
def run : List Action → Pool → Pool
  | [], p => p
  | a :: more, p => run more (step a p)

/-- The step is the start of the destructor. -/
def Action.isDestructorBegin : Action → Bool
  | Action.destructorBegin => true
  | _ => false

/-- The tasks handed to `pushTask` in a sequence of steps, in call order. -/
def pushedTasks : List Action → List Task
  | [] => []
  | Action.pushTask runnable _ :: more => runnable :: pushedTasks more
  | _ :: more => pushedTasks more

/-- Modelled from the spec: a quiescent observation point (section 8) is one at which
every worker is either Idle or Busy. -/
def quiescent (ws : List Worker) : Bool :=
  ws.all (fun w => w.idleFlag || w.busyFlag)

/-- How many transitions a worker is away from Stopped, at most. -/
def Worker.stepsLeft (w : Worker) : Nat :=
  match w.state with
  | WorkerState.Starting => 3
  | WorkerState.Idle => 2
  | WorkerState.Busy _ => 3
  | WorkerState.Stopping => 1
  | WorkerState.Stopped => 0

/-- A bound on the worker transitions left until the teardown is complete. -/
def teardownMeasure (p : Pool) : Nat :=
  3 * p._taskQueue.q.length + (p.workers.map Worker.stepsLeft).sum

/-- What every reachable pool satisfies. -/
structure Inv (p : Pool) : Prop where
  len : (p.workers.length : Int) = p._initedThreadNum
  idle : p._idleThreadNum = (idleCount p.workers : Int)
  minpos : 1 ≤ p._minThreadNum
  lo : p._minThreadNum ≤ p._initedThreadNum
  hi : p._initedThreadNum ≤ p._maxThreadNum
  noabort : ∀ w ∈ p.workers, w.abort = false
  nostop : p._isStop = false
  leaving : ∀ w ∈ p.workers, w.leavingFlag = true → p._isDone = true ∧ p._taskQueue.q = []
  conserve : p.submitted.Perm (p.executed.map Prod.fst ++ (heldTasks p.workers ++ p._taskQueue.q))

/-! ## Concrete pools used as inputs -/

/-- Sample defaults: last shrink stamp at time 0, an interval of 5 seconds, steps of 1. -/
def sampleDefaults : Defaults :=
  { lastShrinkTime := { tv_sec := 0, tv_usec := 0 }
    shrinkInterval := 5
    shrinkStep := 1
    stretchStep := 1 }

/-- The pool that `ThreadPool(1, 2)` builds with the sample defaults. -/
def samplePool : Pool :=
  { workers := [{ state := WorkerState.Starting, abort := false }]
    _taskQueue := { q := [] }
    _isDone := false
    _isStop := false
    _idleThreadNum := 0
    _minThreadNum := 1
    _maxThreadNum := 2
    _initedThreadNum := 1
    _lastShrinkTime := { tv_sec := 0, tv_usec := 0 }
    _shrinkInterval := 5
    _shrinkStep := 1
    _stretchStep := 1
    submitted := []
    executed := [] }

/-- Task 7 is pushed while no worker is idle (the pool stretches to two workers), both
workers start, worker 0 takes the task and completes it. -/
def sampleGrowth : List Action :=
  [Action.pushTask 7 1, Action.workerStart 0, Action.workerStart 1,
   Action.workerTake 0, Action.workerFinish 0]

/-- The sample pool after `sampleGrowth`: two idle workers, one more than the minimum. -/
def sampleGrown : Pool :=
  { workers := [{ state := WorkerState.Idle, abort := false },
                { state := WorkerState.Idle, abort := false }]
    _taskQueue := { q := [] }
    _isDone := false
    _isStop := false
    _idleThreadNum := 2
    _minThreadNum := 1
    _maxThreadNum := 2
    _initedThreadNum := 2
    _lastShrinkTime := { tv_sec := 0, tv_usec := 0 }
    _shrinkInterval := 5
    _shrinkStep := 1
    _stretchStep := 1
    submitted := [7]
    executed := [(7, 0)] }

/-- Calls on the pool only, no worker transition: a `pushTask` while no worker is idle, a
`stretchPool` at the maximum and a rate-limited `shrinkPool`. -/
def sampleCalls : List Action :=
  [Action.pushTask 7 1, Action.stretchPool 1 1,
   Action.shrinkPool { tv_sec := 1, tv_usec := 0 } (fun _ => true)]

/-- The sample pool after `sampleCalls`: two workers, both still Starting, task 7
queued. -/
def sampleStretched : Pool :=
  { workers := [{ state := WorkerState.Starting, abort := false },
                { state := WorkerState.Starting, abort := false }]
    _taskQueue := { q := [7] }
    _isDone := false
    _isStop := false
    _idleThreadNum := 0
    _minThreadNum := 1
    _maxThreadNum := 2
    _initedThreadNum := 2
    _lastShrinkTime := { tv_sec := 0, tv_usec := 0 }
    _shrinkInterval := 5
    _shrinkStep := 1
    _stretchStep := 1
    submitted := [7]
    executed := [] }

/-- Two tasks are pushed, both workers start and run one task each, the destructor
begins, and both workers notice the done flag on an empty queue and exit. -/
def sampleTeardown : List Action :=
  [Action.pushTask 7 1, Action.pushTask 8 1,
   Action.workerStart 0, Action.workerStart 1,
   Action.workerTake 1, Action.workerTake 0,
   Action.workerFinish 0]

/-- The rest of the sample teardown, from the start of the destructor on. -/
def sampleTeardownRest : List Action :=
  [Action.pushTask 9 1, Action.workerNotice 0, Action.workerFinish 1,
   Action.workerNotice 0, Action.workerNotice 1,
   Action.workerExit 0, Action.workerExit 1]

/-! ## Lemmas on the queue -/

namespace ThreadSafeQueue

variable {T : Type}

theorem pushAll_fst (values : List T) (self : ThreadSafeQueue T) :
    (pushAll values self).1 = List.replicate values.length true := by
  induction values generalizing self with
  | nil => rfl
  | cons value more ih => simp [pushAll, push, ih, List.replicate_succ]

theorem pushAll_snd (values : List T) (self : ThreadSafeQueue T) :
    (pushAll values self).2 = { q := self.q ++ values } := by
  induction values generalizing self with
  | nil => simp [pushAll]
  | cons value more ih => simp [pushAll, push, ih]

theorem popN_of_append (values rest : List T) (v : T) :
    popN values.length v { q := values ++ rest }
      = (values.map (fun x => (true, x)), { q := rest }) := by
  induction values with
  | nil => simp [popN]
  | cons value more ih => simp [popN, pop, ih]

theorem runCalls_size (calls : List (Call T)) (self : ThreadSafeQueue T) :
    (size (runCalls calls self).2.2).1 + (runCalls calls self).2.1
      = (size self).1 + (runCalls calls self).1 := by
  induction calls generalizing self with
  | nil => simp [runCalls]
  | cons call more ih =>
    cases call with
    | push value =>
      have h := ih (push value self).2
      simp only [runCalls, size, push, List.length_append, List.length_singleton] at h ⊢
      omega
    | pop v =>
      have h := ih (pop v self).2.2
      rcases self with ⟨_ | ⟨front, rest⟩⟩
      · simp only [runCalls, size, pop, List.length_nil] at h ⊢
        simpa using h
      · simp only [runCalls, size, pop, List.length_cons] at h ⊢
        simp only [if_true]
        omega

end ThreadSafeQueue

/-! ## Theorems on the queue -/

/-- C1: strict FIFO. On an empty queue, pushing the values of any finite list in order
(every push returns true) and then calling pop as many times makes every pop return
true, the values received are exactly the pushed ones in push order, each once, and the
queue is empty afterwards. -/
theorem queue_strict_fifo {T : Type} (values : List T) (v : T) :
    (ThreadSafeQueue.pushAll values ThreadSafeQueue.new).1
        = List.replicate values.length true ∧
    (ThreadSafeQueue.popN values.length v
        (ThreadSafeQueue.pushAll values ThreadSafeQueue.new).2).1.map Prod.fst
        = List.replicate values.length true ∧
    (ThreadSafeQueue.popN values.length v
        (ThreadSafeQueue.pushAll values ThreadSafeQueue.new).2).1.map Prod.snd = values ∧
    (ThreadSafeQueue.popN values.length v
        (ThreadSafeQueue.pushAll values ThreadSafeQueue.new).2).2 = ThreadSafeQueue.new ∧
    (ThreadSafeQueue.empty (ThreadSafeQueue.popN values.length v
        (ThreadSafeQueue.pushAll values ThreadSafeQueue.new).2).2).1 = true := by
  have hp := ThreadSafeQueue.popN_of_append values [] v
  simp only [List.append_nil] at hp
  refine ⟨ThreadSafeQueue.pushAll_fst values _, ?_, ?_, ?_, ?_⟩ <;>
    simp [ThreadSafeQueue.pushAll_snd, ThreadSafeQueue.new, hp, ThreadSafeQueue.empty,
      Function.comp_def]

/-- C2: pop on a non-empty queue removes and returns the head. It returns true, the
output argument receives the front element (the oldest one still queued), the remaining
elements stay in their previous order and the size goes down by exactly one. -/
theorem pop_nonempty_removes_head {T : Type} (v : T) (self : ThreadSafeQueue T)
    (hne : (ThreadSafeQueue.empty self).1 = false) :
    ∃ front rest, self.q = front :: rest ∧
      (ThreadSafeQueue.pop v self).1 = true ∧
      (ThreadSafeQueue.pop v self).2.1 = front ∧
      self.q.head? = some (ThreadSafeQueue.pop v self).2.1 ∧
      (ThreadSafeQueue.pop v self).2.2.q = rest ∧
      (ThreadSafeQueue.pop v self).2.2.q = self.q.tail ∧
      (ThreadSafeQueue.size (ThreadSafeQueue.pop v self).2.2).1 + 1
        = (ThreadSafeQueue.size self).1 := by
  rcases self with ⟨_ | ⟨front, rest⟩⟩
  · simp [ThreadSafeQueue.empty] at hne
  · exact ⟨front, rest, by simp [ThreadSafeQueue.pop, ThreadSafeQueue.size]⟩

/-- Witness for C2 on the queue holding 7, 8, 9 (7 pushed first). -/
theorem pop_nonempty_removes_head_witness :
    (ThreadSafeQueue.empty ({ q := [7, 8, 9] } : ThreadSafeQueue Nat)).1 = false ∧
    ∃ front rest, ({ q := [7, 8, 9] } : ThreadSafeQueue Nat).q = front :: rest ∧
      (ThreadSafeQueue.pop 0 ({ q := [7, 8, 9] } : ThreadSafeQueue Nat)).1 = true ∧
      (ThreadSafeQueue.pop 0 ({ q := [7, 8, 9] } : ThreadSafeQueue Nat)).2.1 = front ∧
      ({ q := [7, 8, 9] } : ThreadSafeQueue Nat).q.head?
        = some (ThreadSafeQueue.pop 0 ({ q := [7, 8, 9] } : ThreadSafeQueue Nat)).2.1 ∧
      (ThreadSafeQueue.pop 0 ({ q := [7, 8, 9] } : ThreadSafeQueue Nat)).2.2.q = rest ∧
      (ThreadSafeQueue.pop 0 ({ q := [7, 8, 9] } : ThreadSafeQueue Nat)).2.2.q
        = ({ q := [7, 8, 9] } : ThreadSafeQueue Nat).q.tail ∧
      (ThreadSafeQueue.size
          (ThreadSafeQueue.pop 0 ({ q := [7, 8, 9] } : ThreadSafeQueue Nat)).2.2).1 + 1
        = (ThreadSafeQueue.size ({ q := [7, 8, 9] } : ThreadSafeQueue Nat)).1 :=
  ⟨by decide, pop_nonempty_removes_head 0 { q := [7, 8, 9] } (by decide)⟩

/-- C3: push always succeeds. For every queue and value it returns true, the new content
is the old content followed by the value, the size grows by exactly one, every element
already queued keeps its position, and the value sits at the tail. -/
theorem push_always_succeeds {T : Type} (value : T) (self : ThreadSafeQueue T) :
    (ThreadSafeQueue.push value self).1 = true ∧
    (ThreadSafeQueue.push value self).2.q = self.q ++ [value] ∧
    (ThreadSafeQueue.size (ThreadSafeQueue.push value self).2).1
      = (ThreadSafeQueue.size self).1 + 1 ∧
    (∀ i, i < (ThreadSafeQueue.size self).1 →
      (ThreadSafeQueue.push value self).2.q[i]? = self.q[i]?) ∧
    (ThreadSafeQueue.push value self).2.q[(ThreadSafeQueue.size self).1]? = some value ∧
    (ThreadSafeQueue.push value self).2.q.getLast? = some value := by
  refine ⟨rfl, rfl, by simp [ThreadSafeQueue.push, ThreadSafeQueue.size], ?_, ?_, ?_⟩
  · intro i hi
    simp only [ThreadSafeQueue.size] at hi
    simp [ThreadSafeQueue.push, List.getElem?_append_left hi]
  · simp [ThreadSafeQueue.push, ThreadSafeQueue.size]
  · simp [ThreadSafeQueue.push]

/-- C4: pop signals empty without side effect. It returns false exactly when the queue
is empty, and then the queue is left as it was (still empty) and the caller's output
argument keeps its value. -/
theorem pop_false_iff_empty {T : Type} (v : T) (self : ThreadSafeQueue T) :
    ((ThreadSafeQueue.pop v self).1 = false ↔ (ThreadSafeQueue.empty self).1 = true) ∧
    ((ThreadSafeQueue.empty self).1 = true →
      ThreadSafeQueue.pop v self = (false, v, self) ∧
      (ThreadSafeQueue.empty (ThreadSafeQueue.pop v self).2.2).1 = true) := by
  rcases self with ⟨_ | ⟨front, rest⟩⟩ <;> simp [ThreadSafeQueue.pop, ThreadSafeQueue.empty]

/-- C10: size accounting. `size` and `empty` hand the queue back unchanged, `empty`
answers true exactly when `size` answers 0, and after any sequence of push and pop calls
on an initially empty queue `size` is the number of pushes minus the number of pops that
returned true. -/
theorem size_accounting {T : Type} (self : ThreadSafeQueue T)
    (calls : List (ThreadSafeQueue.Call T)) :
    (ThreadSafeQueue.size self).2 = self ∧
    (ThreadSafeQueue.empty self).2 = self ∧
    ((ThreadSafeQueue.empty self).1 = true ↔ (ThreadSafeQueue.size self).1 = 0) ∧
    (ThreadSafeQueue.runCalls calls ThreadSafeQueue.new).2.1
      ≤ (ThreadSafeQueue.runCalls calls ThreadSafeQueue.new).1 ∧
    (ThreadSafeQueue.size (ThreadSafeQueue.runCalls calls ThreadSafeQueue.new).2.2).1
      = (ThreadSafeQueue.runCalls calls ThreadSafeQueue.new).1
        - (ThreadSafeQueue.runCalls calls ThreadSafeQueue.new).2.1 := by
  have h := ThreadSafeQueue.runCalls_size calls (ThreadSafeQueue.new : ThreadSafeQueue T)
  simp only [ThreadSafeQueue.size, ThreadSafeQueue.new, List.length_nil, Nat.zero_add] at h
  refine ⟨rfl, rfl, ?_, ?_, ?_⟩
  · simp [ThreadSafeQueue.empty, ThreadSafeQueue.size]
  · simp only [ThreadSafeQueue.new]; omega
  · simp only [ThreadSafeQueue.size, ThreadSafeQueue.new]; omega

/-! ## Lemmas on the number conversions -/

theorem natAbs_cast_rat (n : Int) :
    ((n.natAbs : ℚ)) = if n < 0 then -(n : ℚ) else (n : ℚ) := by
  split_ifs with hn
  · have h : ((n.natAbs : Int)) = -n := by omega
    rw [← Int.cast_natCast, h]
    simp
  · have h : ((n.natAbs : Int)) = n := by omega
    rw [← Int.cast_natCast, h]

theorem log2_two_pow_24 : Nat.log2 16777216 = 24 := by
  have h1 : 24 ≤ Nat.log2 16777216 := (Nat.le_log2 (by norm_num)).2 (by norm_num)
  have h2 : Nat.log2 16777216 < 25 := (Nat.log2_lt (by norm_num)).2 (by norm_num)
  omega

/-- An `int` of magnitude at most 2^24 converts to `float` without rounding. -/
theorem intToFloat_exact (n : Int) (h : n.natAbs ≤ 16777216) : intToFloat n = (n : ℚ) := by
  have hval := natAbs_cast_rat n
  rcases Nat.lt_or_eq_of_le h with hlt | heq
  · have hsh : (Nat.log2 n.natAbs + 1) - 24 = 0 := by
      by_cases h0 : n.natAbs = 0
      · rw [h0]; simp [Nat.log2_zero]
      · have := (Nat.log2_lt h0 (k := 24)).2 (by simpa using hlt)
        omega
    simp only [intToFloat, hsh]
    simp only [pow_zero, Nat.div_one, Nat.mod_one, mul_zero, mul_one]
    norm_num
    split_ifs at hval ⊢ with hn
    · rw [hval]; simp
    · exact hval
  · simp only [intToFloat, heq, log2_two_pow_24]
    norm_num
    rw [heq] at hval
    split_ifs at hval ⊢ with hn
    · push_cast at hval; linarith
    · push_cast at hval; linarith

/-- A non-negative floating-point value converts to the `int` below it. -/
theorem floatToInt_of_nonneg (s : ℚ) (h0 : 0 ≤ s) (h1 : s ≤ 16777216) :
    floatToInt s = some ⌊s⌋ ∧ 0 ≤ ⌊s⌋ ∧ ⌊s⌋ ≤ 16777216 := by
  have hfl0 : 0 ≤ ⌊s⌋ := Int.floor_nonneg.2 h0
  have hfl1 : ⌊s⌋ ≤ 16777216 := by
    have : ⌊s⌋ ≤ ⌊(16777216 : ℚ)⌋ := Int.floor_le_floor h1
    have h2 : ⌊(16777216 : ℚ)⌋ = 16777216 := by simp
    omega
  have hnum : 0 ≤ s.num := Rat.num_nonneg.2 h0
  have hdiv : Int.tdiv s.num s.den = ⌊s⌋ := by
    rw [Int.tdiv_eq_ediv hnum (by exact_mod_cast Nat.zero_le _), Rat.floor_def]
  refine ⟨?_, hfl0, hfl1⟩
  simp only [floatToInt, hdiv]
  rw [if_pos ⟨by omega, by omega⟩]

/-! ## Lemmas on the concrete pools -/

theorem construct_samplePool :
    (Pool.construct 1 2 sampleDefaults).1 = Except.ok samplePool := by
  rfl

theorem run_sampleGrowth : run sampleGrowth samplePool = sampleGrown := by
  decide

theorem whole_iff_den_one (s : ℚ) : ((⌊s⌋ : Int) : ℚ) = s ↔ s.den = 1 := by
  constructor
  · intro h
    rw [← h]
    exact Rat.den_intCast _
  · intro h
    have h1 : ((s.num : Int) : ℚ) = s := Rat.coe_int_num_of_den_eq_one h
    rw [← h1, Int.floor_intCast]

/-! ## Theorems on the pool's configuration -/

/-- C5 as stated fails: on the pool built by `ThreadPool(1, 2)`, the call
`setShrinkInterval(0.5)` leaves a shrink interval of 0, not of 0.5: the `int` parameter
of the declaration drops the fraction before the pool sees the value. -/
theorem setShrinkInterval_half_is_truncated :
    (Pool.construct 1 2 sampleDefaults).1 = Except.ok samplePool ∧
    (0 : ℚ) ≤ 1 / 2 ∧
    Pool.setShrinkIntervalWith (1 / 2) samplePool
      = some (Pool.setShrinkInterval 0 samplePool) ∧
    (Pool.setShrinkInterval 0 samplePool)._shrinkInterval = 0 ∧
    (Pool.setShrinkInterval 0 samplePool)._shrinkInterval ≠ 1 / 2 := by
  have ht : Int.tdiv 1 2 = 0 := by decide
  refine ⟨rfl, by norm_num, ?_, ?_, ?_⟩
  · norm_num [Pool.setShrinkIntervalWith, floatToInt, ht]
  · norm_num [Pool.setShrinkInterval, intToFloat]
  · norm_num [Pool.setShrinkInterval, intToFloat]

/-- C5 amended: `setShrinkInterval` takes whole seconds. For every value `s` with
`0 ≤ s ≤ 2^24` the call `setShrinkInterval(s)` passes the whole part of `s` to the pool,
the configured interval is exactly that whole number, every other member is unchanged,
and the configured interval equals `s` exactly when `s` is a whole number. -/
theorem setShrinkInterval_whole_seconds (s : ℚ) (p : Pool)
    (h0 : 0 ≤ s) (h1 : s ≤ 16777216) :
    Pool.setShrinkIntervalWith s p = some (Pool.setShrinkInterval ⌊s⌋ p) ∧
    (Pool.setShrinkInterval ⌊s⌋ p)._shrinkInterval = ((⌊s⌋ : Int) : ℚ) ∧
    Pool.setShrinkInterval ⌊s⌋ p = { p with _shrinkInterval := ((⌊s⌋ : Int) : ℚ) } ∧
    ((Pool.setShrinkInterval ⌊s⌋ p)._shrinkInterval = s ↔ s.den = 1) := by
  obtain ⟨hconv, hfl0, hfl1⟩ := floatToInt_of_nonneg s h0 h1
  have hex : intToFloat ⌊s⌋ = ((⌊s⌋ : Int) : ℚ) := intToFloat_exact ⌊s⌋ (by omega)
  refine ⟨?_, ?_, ?_, ?_⟩
  · simp [Pool.setShrinkIntervalWith, hconv]
  · simp [Pool.setShrinkInterval, hex]
  · simp [Pool.setShrinkInterval, hex]
  · simp only [Pool.setShrinkInterval, hex]
    exact whole_iff_den_one s

/-- Witness for C5 amended: the call `setShrinkInterval(1.5)` on the sample pool. -/
theorem setShrinkInterval_whole_seconds_witness :
    (0 : ℚ) ≤ 3 / 2 ∧ (3 / 2 : ℚ) ≤ 16777216 ∧
    (Pool.setShrinkIntervalWith (3 / 2) samplePool
        = some (Pool.setShrinkInterval ⌊(3 / 2 : ℚ)⌋ samplePool) ∧
      (Pool.setShrinkInterval ⌊(3 / 2 : ℚ)⌋ samplePool)._shrinkInterval
        = ((⌊(3 / 2 : ℚ)⌋ : Int) : ℚ) ∧
      Pool.setShrinkInterval ⌊(3 / 2 : ℚ)⌋ samplePool
        = { samplePool with _shrinkInterval := ((⌊(3 / 2 : ℚ)⌋ : Int) : ℚ) } ∧
      ((Pool.setShrinkInterval ⌊(3 / 2 : ℚ)⌋ samplePool)._shrinkInterval = 3 / 2
        ↔ (3 / 2 : ℚ).den = 1)) :=
  ⟨by norm_num, by norm_num,
    setShrinkInterval_whole_seconds (3 / 2) samplePool (by norm_num) (by norm_num)⟩

/-- C7: construction rejects a bad configuration. `ThreadPool(minNum, maxNum)` fails
exactly when `minNum ≤ 0` or `minNum > maxNum`, the failure is `InvalidConfiguration`, and
a failed construction has spawned no worker thread; otherwise it succeeds with
`getMinThreadNum() = minNum`, `getMaxThreadNum() = maxNum`, `getInitedThreadNum() = minNum`
and `minNum` worker threads spawned. -/
theorem construct_rejects_bad_configuration (minNum maxNum : Int) (d : Defaults) :
    ((Pool.construct minNum maxNum d).1 = Except.error PoolError.InvalidConfiguration
      ↔ (minNum ≤ 0 ∨ minNum > maxNum)) ∧
    ((∃ e, (Pool.construct minNum maxNum d).1 = Except.error e)
      ↔ (minNum ≤ 0 ∨ minNum > maxNum)) ∧
    ((minNum ≤ 0 ∨ minNum > maxNum) → (Pool.construct minNum maxNum d).2 = 0) ∧
    (¬ (minNum ≤ 0 ∨ minNum > maxNum) →
      ∃ p, (Pool.construct minNum maxNum d).1 = Except.ok p ∧
        Pool.getMinThreadNum p = minNum ∧
        Pool.getMaxThreadNum p = maxNum ∧
        Pool.getInitedThreadNum p = minNum ∧
        ((p.workers.length : Nat) : Int) = minNum ∧
        (((Pool.construct minNum maxNum d).2 : Nat) : Int) = minNum) := by
  by_cases hbad : minNum ≤ 0 ∨ minNum > maxNum
  · simp [Pool.construct, hbad]
  · have hpos : 0 ≤ minNum := by
      by_contra hneg
      exact hbad (Or.inl (by omega))
    simp [Pool.construct, hbad, Pool.getMinThreadNum, Pool.getMaxThreadNum,
      Pool.getInitedThreadNum, Int.toNat_of_nonneg hpos]

/-! ## Theorems on the rate limit of shrinkPool -/

/-- C8 as stated fails in its last part. The sample pool (interval 5 s, last shrink
stamp 0 s) reaches a state with two idle workers, one above the minimum. A call of
`shrinkPool` at 4 s is rate-limited and returns false; a second call at 6 s, only 2 s
after the first, is 6 s after the last shrink stamp, removes a worker and returns
true. -/
theorem shrinkPool_second_call_can_succeed :
    (Pool.construct 1 2 sampleDefaults).1 = Except.ok samplePool ∧
    run sampleGrowth samplePool = sampleGrown ∧
    secondsBetween { tv_sec := 6, tv_usec := 0 } { tv_sec := 4, tv_usec := 0 }
      < sampleGrown._shrinkInterval ∧
    (Pool.shrinkPool { tv_sec := 4, tv_usec := 0 } (fun _ => true) sampleGrown).1 = false ∧
    (Pool.shrinkPool { tv_sec := 6, tv_usec := 0 } (fun _ => true)
      (Pool.shrinkPool { tv_sec := 4, tv_usec := 0 } (fun _ => true) sampleGrown).2).1
      = true ∧
    Pool.getInitedThreadNum (Pool.shrinkPool { tv_sec := 6, tv_usec := 0 } (fun _ => true)
      (Pool.shrinkPool { tv_sec := 4, tv_usec := 0 } (fun _ => true) sampleGrown).2).2
      = 1 := by
  refine ⟨rfl, run_sampleGrowth, ?_, ?_, ?_, ?_⟩
  · norm_num [secondsBetween, sampleGrown]
  · norm_num [Pool.shrinkPool, secondsBetween, sampleGrown]
  · norm_num [Pool.shrinkPool, secondsBetween, sampleGrown, removeIdle, Worker.idleFlag]
  · norm_num [Pool.shrinkPool, secondsBetween, sampleGrown, removeIdle, Worker.idleFlag,
      Pool.getInitedThreadNum]

/-- C8 amended: `shrinkPool` is rate-limited. Whenever `now - lastShrinkTime` is less
than `shrinkInterval`, `shrinkPool` returns false and leaves the whole pool as it was
(worker slots, counters and the last shrink stamp included); and when a call at `now`
is not rate-limited, it stamps `lastShrinkTime` with `now`, so that a second call at
`later` with `later - now < shrinkInterval` returns false and changes nothing. -/
theorem shrinkPool_rate_limited (now later : timeval) (pick pick2 : Nat → Bool) (p : Pool) :
    (secondsBetween now p._lastShrinkTime < p._shrinkInterval →
      Pool.shrinkPool now pick p = (false, p)) ∧
    (¬ secondsBetween now p._lastShrinkTime < p._shrinkInterval →
      secondsBetween later now < p._shrinkInterval →
      (Pool.shrinkPool now pick p).2._lastShrinkTime = now ∧
      Pool.shrinkPool later pick2 (Pool.shrinkPool now pick p).2
        = (false, (Pool.shrinkPool now pick p).2)) := by
  constructor
  · intro h
    simp [Pool.shrinkPool, h]
  · intro h1 h2
    have hfirst : (Pool.shrinkPool now pick p).2._lastShrinkTime = now ∧
        (Pool.shrinkPool now pick p).2._shrinkInterval = p._shrinkInterval := by
      simp [Pool.shrinkPool, h1]
    refine ⟨hfirst.1, ?_⟩
    have h3 : secondsBetween later (Pool.shrinkPool now pick p).2._lastShrinkTime
        < (Pool.shrinkPool now pick p).2._shrinkInterval := by
      rw [hfirst.1, hfirst.2]; exact h2
    generalize (Pool.shrinkPool now pick p).2 = p1 at h3 ⊢
    simp [Pool.shrinkPool, h3]

/-- Witness for C8 amended on the grown sample pool: a call at 4 s is rate-limited; after
a shrink at 6 s a call at 9 s is rate-limited as well. -/
theorem shrinkPool_rate_limited_witness :
    secondsBetween { tv_sec := 4, tv_usec := 0 } sampleGrown._lastShrinkTime
      < sampleGrown._shrinkInterval ∧
    Pool.shrinkPool { tv_sec := 4, tv_usec := 0 } (fun _ => true) sampleGrown
      = (false, sampleGrown) ∧
    ¬ secondsBetween { tv_sec := 6, tv_usec := 0 } sampleGrown._lastShrinkTime
      < sampleGrown._shrinkInterval ∧
    secondsBetween { tv_sec := 9, tv_usec := 0 } { tv_sec := 6, tv_usec := 0 }
      < sampleGrown._shrinkInterval ∧
    Pool.shrinkPool { tv_sec := 9, tv_usec := 0 } (fun _ => true)
        (Pool.shrinkPool { tv_sec := 6, tv_usec := 0 } (fun _ => true) sampleGrown).2
      = (false, (Pool.shrinkPool { tv_sec := 6, tv_usec := 0 } (fun _ => true) sampleGrown).2) :=
  have hlim : secondsBetween { tv_sec := 4, tv_usec := 0 } sampleGrown._lastShrinkTime
      < sampleGrown._shrinkInterval := by norm_num [secondsBetween, sampleGrown]
  have hnot : ¬ secondsBetween { tv_sec := 6, tv_usec := 0 } sampleGrown._lastShrinkTime
      < sampleGrown._shrinkInterval := by norm_num [secondsBetween, sampleGrown]
  have hclose : secondsBetween { tv_sec := 9, tv_usec := 0 } { tv_sec := 6, tv_usec := 0 }
      < sampleGrown._shrinkInterval := by norm_num [secondsBetween, sampleGrown]
  ⟨hlim,
    (shrinkPool_rate_limited { tv_sec := 4, tv_usec := 0 } { tv_sec := 4, tv_usec := 0 }
      (fun _ => true) (fun _ => true) sampleGrown).1 hlim,
    hnot, hclose,
    ((shrinkPool_rate_limited { tv_sec := 6, tv_usec := 0 } { tv_sec := 9, tv_usec := 0 }
      (fun _ => true) (fun _ => true) sampleGrown).2 hnot hclose).2⟩

/-! ## Lemmas on the worker slots -/

theorem countP_set_add (f : Worker → Bool) (ws : List Worker) (i : Nat) (w w1 : Worker)
    (h : ws[i]? = some w) :
    (ws.set i w1).countP f + (if f w = true then 1 else 0)
      = ws.countP f + (if f w1 = true then 1 else 0) := by
  induction ws generalizing i with
  | nil => simp at h
  | cons x xs ih =>
    cases i with
    | zero =>
      simp only [List.getElem?_cons_zero, Option.some.injEq] at h
      subst h
      simp only [List.set_cons_zero, List.countP_cons]
      omega
    | succ j =>
      simp only [List.getElem?_cons_succ] at h
      have := ih j h
      simp only [List.set_cons_succ, List.countP_cons]
      omega

theorem heldTasks_count_set (a : Task) (ws : List Worker) (i : Nat) (w w1 : Worker)
    (h : ws[i]? = some w) :
    (heldTasks (ws.set i w1)).count a + w.heldTask.count a
      = (heldTasks ws).count a + w1.heldTask.count a := by
  induction ws generalizing i with
  | nil => simp at h
  | cons x xs ih =>
    cases i with
    | zero =>
      simp only [List.getElem?_cons_zero, Option.some.injEq] at h
      subst h
      simp only [List.set_cons_zero, heldTasks, List.count_append]
      omega
    | succ j =>
      simp only [List.getElem?_cons_succ] at h
      have := ih j h
      simp only [List.set_cons_succ, heldTasks, List.count_append]
      omega

theorem heldTasks_append (xs ys : List Worker) :
    heldTasks (xs ++ ys) = heldTasks xs ++ heldTasks ys := by
  induction xs with
  | nil => rfl
  | cons x xs ih => simp [heldTasks, ih]

theorem heldTasks_replicate_fresh (k : Nat) : heldTasks (List.replicate k freshWorker) = [] := by
  induction k with
  | zero => rfl
  | succ k ih =>
    rw [List.replicate_succ, heldTasks, ih]
    rfl

theorem idleCount_append_fresh (ws : List Worker) (k : Nat) :
    idleCount (ws ++ List.replicate k freshWorker) = idleCount ws := by
  simp [idleCount, List.countP_append, List.countP_replicate, freshWorker, Worker.idleFlag]

theorem removeIdle_spec (pick : Nat → Bool) (budget i : Nat) (ws : List Worker) :
    (removeIdle pick budget i ws).length ≤ ws.length ∧
    ws.length - (removeIdle pick budget i ws).length ≤ budget ∧
    idleCount (removeIdle pick budget i ws) + (ws.length - (removeIdle pick budget i ws).length)
      = idleCount ws ∧
    heldTasks (removeIdle pick budget i ws) = heldTasks ws ∧
    (∀ w, w ∈ removeIdle pick budget i ws → w ∈ ws) := by
  induction ws generalizing budget i with
  | nil => simp [removeIdle]
  | cons x xs ih =>
    simp only [removeIdle]
    split_ifs with hc
    · obtain ⟨h1, h2, h3, h4, h5⟩ := ih (budget - 1) (i + 1)
      obtain ⟨hb, hidle, _⟩ := hc
      have hx : x.heldTask = [] := by
        rcases x with ⟨st, ab⟩
        cases st <;> simp_all [Worker.idleFlag, Worker.heldTask]
      refine ⟨?_, ?_, ?_, ?_, ?_⟩
      · simp only [List.length_cons]; omega
      · simp only [List.length_cons]; omega
      · simp only [idleCount, List.length_cons, List.countP_cons, hidle] at h3 ⊢
        simp only [if_true]
        omega
      · simp [heldTasks, hx, h4]
      · intro w hw; exact List.mem_cons_of_mem _ (h5 w hw)
    · obtain ⟨h1, h2, h3, h4, h5⟩ := ih budget (i + 1)
      refine ⟨?_, ?_, ?_, ?_, ?_⟩
      · simp only [List.length_cons]; omega
      · simp only [List.length_cons]; omega
      · simp only [idleCount, List.length_cons, List.countP_cons] at h3 ⊢
        omega
      · simp [heldTasks, h4]
      · intro w hw
        rcases List.mem_cons.1 hw with rfl | hw
        · exact List.mem_cons_self _ _
        · exact List.mem_cons_of_mem _ (h5 w hw)

theorem quiescent_counts (ws : List Worker) (h : quiescent ws = true) :
    idleCount ws + busyCount ws = ws.length := by
  induction ws with
  | nil => rfl
  | cons x xs ih =>
    simp only [quiescent, List.all_cons, Bool.and_eq_true, Bool.or_eq_true] at h
    have := ih (by simpa [quiescent] using h.2)
    have hx : (x.idleFlag = true ∧ x.busyFlag = false) ∨ (x.idleFlag = false ∧ x.busyFlag = true) := by
      have h1 := h.1
      rcases x with ⟨st, ab⟩
      cases st <;> simp_all [Worker.idleFlag, Worker.busyFlag]
    simp only [idleCount, busyCount, List.countP_cons, List.length_cons] at this ⊢
    rcases hx with ⟨h1, h2⟩ | ⟨h1, h2⟩ <;> simp [h1, h2] <;> omega

/-! ## The invariant holds in every reachable pool -/

theorem Inv_construct (minNum maxNum : Int) (d : Defaults) (p : Pool)
    (h : (Pool.construct minNum maxNum d).1 = Except.ok p) : Inv p := by
  unfold Pool.construct at h
  split_ifs at h with hbad
  simp only [Except.ok.injEq] at h
  subst h
  have h1 : 1 ≤ minNum := by
    by_contra hc; exact hbad (Or.inl (by omega))
  have h2 : minNum ≤ maxNum := by
    by_contra hc; exact hbad (Or.inr (by omega))
  refine ⟨?_, ?_, h1, le_refl _, h2, ?_, rfl, ?_, ?_⟩
  · simp only [List.length_replicate]; omega
  · have := idleCount_append_fresh [] minNum.toNat
    simp only [List.nil_append] at this
    show (0 : Int) = ((idleCount (List.replicate minNum.toNat freshWorker) : Nat) : Int)
    rw [this]
    rfl
  · intro w hw
    rw [(List.mem_replicate.1 hw).2]; rfl
  · intro w hw hl
    rw [(List.mem_replicate.1 hw).2] at hl
    simp [freshWorker, Worker.leavingFlag] at hl
  · simp [heldTasks_replicate_fresh, ThreadSafeQueue.new]

theorem Inv_stretchPool (count : Int) (avail : Nat) (p : Pool) (h : Inv p) :
    Inv (Pool.stretchPool count avail p) := by
  obtain ⟨hlen, hidle, hmin, hlo, hhi, hab, hst, hlv, hcon⟩ := h
  refine ⟨?_, ?_, hmin, ?_, ?_, ?_, hst, ?_, ?_⟩
  · simp only [Pool.stretchPool, List.length_append, List.length_replicate]
    push_cast
    omega
  · simp only [Pool.stretchPool, idleCount_append_fresh]
    exact hidle
  · simp only [Pool.stretchPool]; omega
  · simp only [Pool.stretchPool]; omega
  · intro w hw
    simp only [Pool.stretchPool] at hw
    rcases List.mem_append.1 hw with hw | hw
    · exact hab w hw
    · rw [(List.mem_replicate.1 hw).2]; rfl
  · intro w hw hl
    simp only [Pool.stretchPool] at hw ⊢
    rcases List.mem_append.1 hw with hw | hw
    · exact hlv w hw hl
    · rw [(List.mem_replicate.1 hw).2] at hl
      simp [freshWorker, Worker.leavingFlag] at hl
  · simp only [Pool.stretchPool, heldTasks_append, heldTasks_replicate_fresh, List.append_nil]
    exact hcon

theorem Inv_pushTask (runnable : Task) (avail : Nat) (p p1 : Pool) (h : Inv p)
    (hok : Pool.pushTask runnable avail p = Except.ok p1) : Inv p1 := by
  unfold Pool.pushTask at hok
  split_ifs at hok with hclosed hgrow
  · simp only [Except.ok.injEq] at hok
    subst hok
    have hdone : p._isDone = false := by
      cases hd : p._isDone <;> simp_all
    obtain ⟨hlen, hidle, hmin, hlo, hhi, hab, hst, hlv, hcon⟩ := Inv_stretchPool p._stretchStep avail p h
    have hdone1 : (Pool.stretchPool p._stretchStep avail p)._isDone = false := hdone
    refine ⟨hlen, hidle, hmin, hlo, hhi, hab, hst, ?_, ?_⟩
    · intro w hw hl
      have := (hlv w hw hl).1
      rw [hdone1] at this
      exact absurd this (by simp)
    · rw [List.perm_iff_count] at hcon ⊢
      intro a
      have := hcon a
      simp only [ThreadSafeQueue.push, List.count_append] at this ⊢
      omega
  · simp only [Except.ok.injEq] at hok
    subst hok
    have hdone : p._isDone = false := by
      cases hd : p._isDone <;> simp_all
    obtain ⟨hlen, hidle, hmin, hlo, hhi, hab, hst, hlv, hcon⟩ := h
    refine ⟨hlen, hidle, hmin, hlo, hhi, hab, hst, ?_, ?_⟩
    · intro w hw hl
      have := (hlv w hw hl).1
      rw [hdone] at this
      exact absurd this (by simp)
    · rw [List.perm_iff_count] at hcon ⊢
      intro a
      have := hcon a
      simp only [ThreadSafeQueue.push, List.count_append] at this ⊢
      omega

theorem Inv_shrinkPool (now : timeval) (pick : Nat → Bool) (p : Pool) (h : Inv p) :
    Inv (Pool.shrinkPool now pick p).2 := by
  unfold Pool.shrinkPool
  split_ifs with hlim
  · exact h
  · obtain ⟨hlen, hidle, hmin, hlo, hhi, hab, hst, hlv, hcon⟩ := h
    obtain ⟨r1, r2, r3, r4, r5⟩ := removeIdle_spec pick
      (min p._shrinkStep (p._initedThreadNum - p._minThreadNum)).toNat 0 p.workers
    refine ⟨?_, ?_, hmin, ?_, ?_, ?_, hst, ?_, ?_⟩
    · simp only; omega
    · simp only; omega
    · simp only; omega
    · simp only; omega
    · intro w hw; exact hab w (r5 w hw)
    · intro w hw hl; exact hlv w (r5 w hw) hl
    · simp only [r4]; exact hcon

theorem Inv_setters (p : Pool) (h : Inv p) (seconds step : Int) :
    Inv (Pool.setShrinkInterval seconds p) ∧ Inv (Pool.setShrinkStep step p) ∧
    Inv (Pool.setStretchStep step p) ∧ Inv (Pool.destructorBegin p) := by
  obtain ⟨hlen, hidle, hmin, hlo, hhi, hab, hst, hlv, hcon⟩ := h
  refine ⟨⟨hlen, hidle, hmin, hlo, hhi, hab, hst, hlv, hcon⟩,
    ⟨hlen, hidle, hmin, hlo, hhi, hab, hst, hlv, hcon⟩,
    ⟨hlen, hidle, hmin, hlo, hhi, hab, hst, hlv, hcon⟩,
    ⟨hlen, hidle, hmin, hlo, hhi, hab, hst, ?_, hcon⟩⟩
  intro w hw hl
  exact ⟨rfl, (hlv w hw hl).2⟩

theorem Inv_workerStart (i : Nat) (p : Pool) (h : Inv p) : Inv (Pool.workerStart i p) := by
  unfold Pool.workerStart
  split
  · exact h
  · rename_i w hw
    split_ifs with hs
    · obtain ⟨hlen, hidle, hmin, hlo, hhi, hab, hst, hlv, hcon⟩ := h
      have hmem := List.getElem?_mem hw
      have hc := countP_set_add Worker.idleFlag p.workers i w
        { w with state := WorkerState.Idle } hw
      have hwi : w.idleFlag = false := by simp [Worker.idleFlag, hs]
      have hwh : w.heldTask = [] := by simp [Worker.heldTask, hs]
      refine ⟨?_, ?_, hmin, hlo, hhi, ?_, hst, ?_, ?_⟩
      · simp only [List.length_set]; exact hlen
      · simp only [idleCount] at hidle ⊢
        rw [hwi] at hc
        simp [Worker.idleFlag] at hc
        omega
      · intro x hx
        rcases List.mem_or_eq_of_mem_set hx with hx | rfl
        · exact hab x hx
        · exact hab w hmem
      · intro x hx hl
        rcases List.mem_or_eq_of_mem_set hx with hx | rfl
        · exact hlv x hx hl
        · simp [Worker.leavingFlag] at hl
      · rw [List.perm_iff_count] at hcon ⊢
        intro a
        have h1 := hcon a
        have h2 := heldTasks_count_set a p.workers i w { w with state := WorkerState.Idle } hw
        rw [hwh] at h2
        simp only [Worker.heldTask, List.count_nil, List.count_append] at h1 h2 ⊢
        omega
    · exact h

theorem Inv_workerTake (i : Nat) (p : Pool) (h : Inv p) : Inv (Pool.workerTake i p) := by
  unfold Pool.workerTake
  split
  · exact h
  · rename_i w hw
    dsimp only
    split_ifs with hs hpop
    · obtain ⟨hlen, hidle, hmin, hlo, hhi, hab, hst, hlv, hcon⟩ := h
      have hmem := List.getElem?_mem hw
      have hwi : w.idleFlag = true := by simp [Worker.idleFlag, hs]
      have hwh : w.heldTask = [] := by simp [Worker.heldTask, hs]
      obtain ⟨front, rest, hq, hr1, hr2⟩ : ∃ front rest, p._taskQueue.q = front :: rest ∧
          (ThreadSafeQueue.pop 0 p._taskQueue).2.1 = front ∧
          (ThreadSafeQueue.pop 0 p._taskQueue).2.2 = { q := rest } := by
        unfold ThreadSafeQueue.pop at hpop ⊢
        split at hpop
        · simp at hpop
        · rename_i front rest hq
          exact ⟨front, rest, hq, by simp [hq], by simp [hq]⟩
      have hnol : ∀ x ∈ p.workers, x.leavingFlag = false := by
        intro x hx
        cases hl : x.leavingFlag
        · rfl
        · have := (hlv x hx hl).2
          rw [hq] at this
          simp at this
      have hc := countP_set_add Worker.idleFlag p.workers i w
        { w with state := WorkerState.Busy (ThreadSafeQueue.pop 0 p._taskQueue).2.1 } hw
      refine ⟨?_, ?_, hmin, hlo, hhi, ?_, hst, ?_, ?_⟩
      · simp only [List.length_set]; exact hlen
      · simp only [idleCount] at hidle ⊢
        rw [hwi] at hc
        simp [Worker.idleFlag] at hc
        omega
      · intro x hx
        rcases List.mem_or_eq_of_mem_set hx with hx | rfl
        · exact hab x hx
        · exact hab w hmem
      · intro x hx hl
        rcases List.mem_or_eq_of_mem_set hx with hx | rfl
        · rw [hnol x hx] at hl; simp at hl
        · simp [Worker.leavingFlag] at hl
      · rw [List.perm_iff_count] at hcon ⊢
        intro a
        have h1 := hcon a
        have h2 := heldTasks_count_set a p.workers i w
          { w with state := WorkerState.Busy (ThreadSafeQueue.pop 0 p._taskQueue).2.1 } hw
        rw [hwh] at h2
        simp only [hr1, hr2, hq, Worker.heldTask, List.count_nil, List.count_append,
          List.count_cons, List.count_singleton] at h1 h2 ⊢
        omega
    · exact h
    · exact h

theorem Inv_workerFinish (i : Nat) (p : Pool) (h : Inv p) : Inv (Pool.workerFinish i p) := by
  unfold Pool.workerFinish
  split
  · exact h
  · rename_i w hw
    split
    · rename_i task hs
      obtain ⟨hlen, hidle, hmin, hlo, hhi, hab, hst, hlv, hcon⟩ := h
      have hmem := List.getElem?_mem hw
      have hwi : w.idleFlag = false := by simp [Worker.idleFlag, hs]
      have hwh : w.heldTask = [task] := by simp [Worker.heldTask, hs]
      have hc := countP_set_add Worker.idleFlag p.workers i w
        { w with state := WorkerState.Idle } hw
      refine ⟨?_, ?_, hmin, hlo, hhi, ?_, hst, ?_, ?_⟩
      · simp only [List.length_set]; exact hlen
      · simp only [idleCount] at hidle ⊢
        rw [hwi] at hc
        simp [Worker.idleFlag] at hc
        omega
      · intro x hx
        rcases List.mem_or_eq_of_mem_set hx with hx | rfl
        · exact hab x hx
        · exact hab w hmem
      · intro x hx hl
        rcases List.mem_or_eq_of_mem_set hx with hx | rfl
        · exact hlv x hx hl
        · simp [Worker.leavingFlag] at hl
      · rw [List.perm_iff_count] at hcon ⊢
        intro a
        have h1 := hcon a
        have h2 := heldTasks_count_set a p.workers i w { w with state := WorkerState.Idle } hw
        rw [hwh] at h2
        simp only [Worker.heldTask, List.count_nil, List.count_append, List.map_append,
          List.map_cons, List.map_nil, List.count_singleton] at h1 h2 ⊢
        omega
    · exact h

theorem Inv_workerNotice (i : Nat) (p : Pool) (h : Inv p) : Inv (Pool.workerNotice i p) := by
  unfold Pool.workerNotice
  split
  · exact h
  · rename_i w hw
    split_ifs with hs
    · obtain ⟨hlen, hidle, hmin, hlo, hhi, hab, hst, hlv, hcon⟩ := h
      have hmem := List.getElem?_mem hw
      obtain ⟨hs, hwhy⟩ := hs
      have hwi : w.idleFlag = true := by simp [Worker.idleFlag, hs]
      have hwh : w.heldTask = [] := by simp [Worker.heldTask, hs]
      have hdq : p._isDone = true ∧ p._taskQueue.q = [] := by
        rcases hwhy with hwa | ⟨hd, he⟩
        · rw [hab w hmem] at hwa; simp at hwa
        · exact ⟨hd, by simpa [ThreadSafeQueue.empty] using he⟩
      have hc := countP_set_add Worker.idleFlag p.workers i w
        { w with state := WorkerState.Stopping } hw
      refine ⟨?_, ?_, hmin, hlo, hhi, ?_, hst, ?_, ?_⟩
      · simp only [List.length_set]; exact hlen
      · simp only [idleCount] at hidle ⊢
        rw [hwi] at hc
        simp [Worker.idleFlag] at hc
        omega
      · intro x hx
        rcases List.mem_or_eq_of_mem_set hx with hx | rfl
        · exact hab x hx
        · exact hab w hmem
      · intro x hx hl
        exact hdq
      · rw [List.perm_iff_count] at hcon ⊢
        intro a
        have h1 := hcon a
        have h2 := heldTasks_count_set a p.workers i w { w with state := WorkerState.Stopping } hw
        rw [hwh] at h2
        simp only [Worker.heldTask, List.count_nil, List.count_append] at h1 h2 ⊢
        omega
    · exact h

theorem Inv_workerExit (i : Nat) (p : Pool) (h : Inv p) : Inv (Pool.workerExit i p) := by
  unfold Pool.workerExit
  split
  · exact h
  · rename_i w hw
    split_ifs with hs
    · obtain ⟨hlen, hidle, hmin, hlo, hhi, hab, hst, hlv, hcon⟩ := h
      have hmem := List.getElem?_mem hw
      have hwi : w.idleFlag = false := by simp [Worker.idleFlag, hs]
      have hwh : w.heldTask = [] := by simp [Worker.heldTask, hs]
      have hdq : p._isDone = true ∧ p._taskQueue.q = [] :=
        hlv w hmem (by simp [Worker.leavingFlag, hs])
      have hc := countP_set_add Worker.idleFlag p.workers i w
        { w with state := WorkerState.Stopped } hw
      refine ⟨?_, ?_, hmin, hlo, hhi, ?_, hst, ?_, ?_⟩
      · simp only [List.length_set]; exact hlen
      · simp only [idleCount] at hidle ⊢
        rw [hwi] at hc
        simp [Worker.idleFlag] at hc
        omega
      · intro x hx
        rcases List.mem_or_eq_of_mem_set hx with hx | rfl
        · exact hab x hx
        · exact hab w hmem
      · intro x hx hl
        exact hdq
      · rw [List.perm_iff_count] at hcon ⊢
        intro a
        have h1 := hcon a
        have h2 := heldTasks_count_set a p.workers i w { w with state := WorkerState.Stopped } hw
        rw [hwh] at h2
        simp only [Worker.heldTask, List.count_nil, List.count_append] at h1 h2 ⊢
        omega
    · exact h

theorem Inv_step (a : Action) (p : Pool) (h : Inv p) : Inv (step a p) := by
  cases a with
  | pushTask runnable avail =>
    simp only [step]
    split
    · rename_i p1 hok; exact Inv_pushTask runnable avail p p1 h hok
    · exact h
  | stretchPool count avail => exact Inv_stretchPool count avail p h
  | shrinkPool now pick => exact Inv_shrinkPool now pick p h
  | setShrinkInterval seconds => exact (Inv_setters p h seconds 0).1
  | setShrinkStep n => exact (Inv_setters p h 0 n).2.1
  | setStretchStep n => exact (Inv_setters p h 0 n).2.2.1
  | workerStart i => exact Inv_workerStart i p h
  | workerTake i => exact Inv_workerTake i p h
  | workerFinish i => exact Inv_workerFinish i p h
  | workerNotice i => exact Inv_workerNotice i p h
  | workerExit i => exact Inv_workerExit i p h
  | destructorBegin => exact (Inv_setters p h 0 0).2.2.2

theorem Inv_run (acts : List Action) (p : Pool) (h : Inv p) : Inv (run acts p) := by
  induction acts generalizing p with
  | nil => exact h
  | cons a more ih => exact ih (step a p) (Inv_step a p h)

/-! ## Lemmas on runs and on teardown -/

theorem run_append (xs ys : List Action) (p : Pool) :
    run (xs ++ ys) p = run ys (run xs p) := by
  induction xs generalizing p with
  | nil => rfl
  | cons a more ih =>
    simp only [List.cons_append, run]
    exact ih (step a p)

/-- What a step leaves alone: the bounds always, the done flag unless the destructor
begins, and the log of accepted tasks unless a `pushTask` is accepted. -/
theorem step_frame (a : Action) (p : Pool) :
    (step a p)._minThreadNum = p._minThreadNum ∧
    (step a p)._maxThreadNum = p._maxThreadNum ∧
    (step a p)._isStop = p._isStop ∧
    (a.isDestructorBegin = false → (step a p)._isDone = p._isDone) ∧
    (p._isDone = true → (step a p)._isDone = true ∧ (step a p).submitted = p.submitted) ∧
    (p._isDone = false → p._isStop = false →
      (step a p).submitted = p.submitted ++ pushedTasks [a]) := by
  cases a with
  | pushTask runnable avail =>
    simp only [step, Pool.pushTask, Pool.stretchPool, pushedTasks, Action.isDestructorBegin]
    split_ifs with hc hg
    · refine ⟨rfl, rfl, rfl, fun _ => rfl, fun h => ⟨h, rfl⟩, ?_⟩
      intro hd hs
      rw [hd, hs] at hc
      simp at hc
    · simp_all
    · simp_all
  | stretchPool count avail =>
    simp [step, Pool.stretchPool, pushedTasks, Action.isDestructorBegin]
  | shrinkPool now pick =>
    simp only [step, Pool.shrinkPool, pushedTasks, Action.isDestructorBegin]
    split_ifs <;> simp
  | setShrinkInterval seconds =>
    simp [step, Pool.setShrinkInterval, pushedTasks, Action.isDestructorBegin]
  | setShrinkStep n =>
    simp [step, Pool.setShrinkStep, pushedTasks, Action.isDestructorBegin]
  | setStretchStep n =>
    simp [step, Pool.setStretchStep, pushedTasks, Action.isDestructorBegin]
  | workerStart i =>
    simp only [step, Pool.workerStart, pushedTasks, Action.isDestructorBegin]
    split
    · simp
    · split_ifs <;> simp
  | workerTake i =>
    simp only [step, Pool.workerTake, pushedTasks, Action.isDestructorBegin]
    split
    · simp
    · split_ifs <;> simp
  | workerFinish i =>
    simp only [step, Pool.workerFinish, pushedTasks, Action.isDestructorBegin]
    split
    · simp
    · split <;> simp
  | workerNotice i =>
    simp only [step, Pool.workerNotice, pushedTasks, Action.isDestructorBegin]
    split
    · simp
    · split_ifs <;> simp
  | workerExit i =>
    simp only [step, Pool.workerExit, pushedTasks, Action.isDestructorBegin]
    split
    · simp
    · split_ifs <;> simp
  | destructorBegin =>
    simp [step, Pool.destructorBegin, pushedTasks, Action.isDestructorBegin]

theorem pushedTasks_cons (a : Action) (more : List Action) :
    pushedTasks (a :: more) = pushedTasks [a] ++ pushedTasks more := by
  cases a <;> simp [pushedTasks]

theorem run_bounds (acts : List Action) (p : Pool) :
    (run acts p)._minThreadNum = p._minThreadNum ∧
    (run acts p)._maxThreadNum = p._maxThreadNum := by
  induction acts generalizing p with
  | nil => exact ⟨rfl, rfl⟩
  | cons a more ih =>
    obtain ⟨h1, h2, _⟩ := step_frame a p
    obtain ⟨h3, h4⟩ := ih (step a p)
    exact ⟨by simp only [run]; rw [h3, h1], by simp only [run]; rw [h4, h2]⟩

/-- Before the destructor begins every `pushTask` is accepted. -/
theorem run_before_destructor (acts : List Action) (p : Pool)
    (hacts : ∀ a ∈ acts, a.isDestructorBegin = false)
    (hdone : p._isDone = false) (hstop : p._isStop = false) :
    (run acts p)._isDone = false ∧ (run acts p)._isStop = false ∧
    (run acts p).submitted = p.submitted ++ pushedTasks acts := by
  induction acts generalizing p with
  | nil => simp [run, pushedTasks, hdone, hstop]
  | cons a more ih =>
    obtain ⟨_, _, h3, h4, _, h6⟩ := step_frame a p
    have ha := hacts a (List.mem_cons_self _ _)
    have hd : (step a p)._isDone = false := by rw [h4 ha]; exact hdone
    have hs : (step a p)._isStop = false := by rw [h3]; exact hstop
    obtain ⟨i1, i2, i3⟩ := ih (step a p) (fun b hb => hacts b (List.mem_cons_of_mem _ hb)) hd hs
    refine ⟨i1, i2, ?_⟩
    simp only [run]
    rw [i3, h6 hdone hstop, pushedTasks_cons a more, List.append_assoc]

/-- Once the destructor has begun no `pushTask` is accepted any more. -/
theorem run_after_destructor (acts : List Action) (p : Pool) (hdone : p._isDone = true) :
    (run acts p)._isDone = true ∧ (run acts p).submitted = p.submitted := by
  induction acts generalizing p with
  | nil => exact ⟨hdone, rfl⟩
  | cons a more ih =>
    obtain ⟨_, _, _, _, h5, _⟩ := step_frame a p
    obtain ⟨i1, i2⟩ := ih (step a p) (h5 hdone).1
    exact ⟨i1, by simp only [run]; rw [i2, (h5 hdone).2]⟩

theorem heldTasks_of_all_stopped (ws : List Worker)
    (h : ws.all Worker.stoppedFlag = true) : heldTasks ws = [] := by
  induction ws with
  | nil => rfl
  | cons x xs ih =>
    simp only [List.all_cons, Bool.and_eq_true] at h
    have hx : x.heldTask = [] := by
      have h1 := h.1
      rcases x with ⟨st, ab⟩
      cases st <;> simp_all [Worker.stoppedFlag, Worker.heldTask]
    simp [heldTasks, hx, ih h.2]

/-- A pool whose destructor has returned holds no task any more. -/
theorem drained_of_returned (p : Pool) (h : Inv p)
    (hret : Pool.destructorReturned p = true) :
    p._taskQueue.q = [] ∧ heldTasks p.workers = [] ∧
    (p.executed.map Prod.fst).Perm p.submitted := by
  simp only [Pool.destructorReturned, Bool.and_eq_true] at hret
  obtain ⟨hdone, hall⟩ := hret
  have hheld := heldTasks_of_all_stopped p.workers hall
  have hq : p._taskQueue.q = [] := by
    have hlen := h.len
    have hlo := h.lo
    have hmin := h.minpos
    cases hws : p.workers with
    | nil => rw [hws] at hlen; simp at hlen; omega
    | cons x xs =>
      rw [hws] at hall
      simp only [List.all_cons, Bool.and_eq_true] at hall
      have hx : x.leavingFlag = true := by
        have h1 := hall.1
        rcases x with ⟨st, ab⟩
        cases st <;> simp_all [Worker.stoppedFlag, Worker.leavingFlag]
      exact (h.leaving x (by rw [hws]; exact List.mem_cons_self _ _) hx).2
  refine ⟨hq, hheld, ?_⟩
  have hcon := h.conserve
  rw [hheld, hq] at hcon
  simpa using hcon.symm

theorem stepsLeft_sum_set (ws : List Worker) (i : Nat) (w w1 : Worker)
    (h : ws[i]? = some w) :
    ((ws.set i w1).map Worker.stepsLeft).sum + w.stepsLeft
      = (ws.map Worker.stepsLeft).sum + w1.stepsLeft := by
  induction ws generalizing i with
  | nil => simp at h
  | cons x xs ih =>
    cases i with
    | zero =>
      simp only [List.getElem?_cons_zero, Option.some.injEq] at h
      subst h
      simp only [List.set_cons_zero, List.map_cons, List.sum_cons]
      omega
    | succ j =>
      simp only [List.getElem?_cons_succ] at h
      have := ih j h
      simp only [List.set_cons_succ, List.map_cons, List.sum_cons]
      omega

theorem exists_not_stopped (ws : List Worker) (h : ws.all Worker.stoppedFlag = false) :
    ∃ (i : Nat) (w : Worker), ws[i]? = some w ∧ w.stoppedFlag = false := by
  induction ws with
  | nil => simp at h
  | cons x xs ih =>
    cases hx : x.stoppedFlag
    · exact ⟨0, x, List.getElem?_cons_zero, hx⟩
    · have hxs : xs.all Worker.stoppedFlag = false := by
        simp only [List.all_cons, hx, Bool.true_and] at h
        exact h
      obtain ⟨i, w, hw, hs⟩ := ih hxs
      exact ⟨i + 1, w, by rw [List.getElem?_cons_succ]; exact hw, hs⟩

/-- While the teardown is not complete, some worker can take a transition that brings
it closer. -/
theorem teardown_progress (p : Pool) (hdone : p._isDone = true)
    (hnot : Pool.destructorReturned p = false) :
    ∃ a, (step a p)._isDone = true ∧ teardownMeasure (step a p) < teardownMeasure p := by
  have hall : p.workers.all Worker.stoppedFlag = false := by
    simpa [Pool.destructorReturned, hdone] using hnot
  obtain ⟨i, w, hw, hs⟩ := exists_not_stopped p.workers hall
  rcases w with ⟨st, ab⟩
  cases st with
  | Starting =>
    refine ⟨Action.workerStart i, ?_, ?_⟩
    · simp [step, Pool.workerStart, hw, hdone]
    · have := stepsLeft_sum_set p.workers i _ { state := WorkerState.Idle, abort := ab } hw
      simp only [teardownMeasure, step, Pool.workerStart, hw, Worker.stepsLeft] at this ⊢
      simp only [if_true]
      omega
  | Idle =>
    cases hq : p._taskQueue.q with
    | nil =>
      refine ⟨Action.workerNotice i, ?_, ?_⟩
      · simp [step, Pool.workerNotice, hw, hdone, ThreadSafeQueue.empty, hq]
      · have := stepsLeft_sum_set p.workers i _ { state := WorkerState.Stopping, abort := ab } hw
        simp only [teardownMeasure, step, Pool.workerNotice, hw, Worker.stepsLeft, hdone,
          ThreadSafeQueue.empty, hq, List.isEmpty_nil] at this ⊢
        simp at this ⊢
        rw [hq, List.length_nil]
        omega
    | cons front rest =>
      refine ⟨Action.workerTake i, ?_, ?_⟩
      · simp [step, Pool.workerTake, hw, hdone, ThreadSafeQueue.pop, hq]
      · have := stepsLeft_sum_set p.workers i _ { state := WorkerState.Busy front, abort := ab } hw
        simp only [teardownMeasure, step, Pool.workerTake, hw, Worker.stepsLeft,
          ThreadSafeQueue.pop, hq] at this ⊢
        simp at this ⊢
        omega
  | Busy task =>
    refine ⟨Action.workerFinish i, ?_, ?_⟩
    · simp [step, Pool.workerFinish, hw, hdone]
    · have := stepsLeft_sum_set p.workers i _ { state := WorkerState.Idle, abort := ab } hw
      simp only [teardownMeasure, step, Pool.workerFinish, hw, Worker.stepsLeft] at this ⊢
      omega
  | Stopping =>
    refine ⟨Action.workerExit i, ?_, ?_⟩
    · simp [step, Pool.workerExit, hw, hdone]
    · have := stepsLeft_sum_set p.workers i _ { state := WorkerState.Stopped, abort := ab } hw
      simp only [teardownMeasure, step, Pool.workerExit, hw, Worker.stepsLeft] at this ⊢
      simp only [if_true]
      omega
  | Stopped => simp [Worker.stoppedFlag] at hs

/-- Once the destructor has begun, the workers can always bring the teardown to its
end: some sequence of steps makes the destructor return. -/
theorem teardown_can_return (n : Nat) (p : Pool) (hdone : p._isDone = true)
    (hn : teardownMeasure p ≤ n) :
    ∃ acts, Pool.destructorReturned (run acts p) = true := by
  induction n generalizing p with
  | zero =>
    cases hret : Pool.destructorReturned p
    · obtain ⟨a, _, hlt⟩ := teardown_progress p hdone hret
      omega
    · exact ⟨[], hret⟩
  | succ k ih =>
    cases hret : Pool.destructorReturned p
    · obtain ⟨a, hd, hlt⟩ := teardown_progress p hdone hret
      obtain ⟨acts, hacts⟩ := ih (step a p) hd (by omega)
      exact ⟨a :: acts, hacts⟩
    · exact ⟨[], hret⟩

/-! ## Theorems on the pool's size and on teardown -/

/-- C6 as stated fails in its last part. The pool built by `ThreadPool(1, 2)`, and the same
pool after `pushTask` (which stretches it to two workers), `stretchPool` and `shrinkPool`,
satisfy `minThreads ≤ initedThreads ≤ maxThreads` and `0 ≤ idleThreads ≤ initedThreads`,
but their workers are still Starting: no worker is idle, none is busy, and idle plus busy
workers is 0 while one, respectively two, workers are initialized. -/
theorem pool_idle_plus_busy_below_inited :
    (Pool.construct 1 2 sampleDefaults).1 = Except.ok samplePool ∧
    Pool.getIdleThreadNum samplePool = 0 ∧
    busyCount samplePool.workers = 0 ∧
    Pool.getInitedThreadNum samplePool = 1 ∧
    Pool.getIdleThreadNum samplePool + (busyCount samplePool.workers : Int)
      ≠ Pool.getInitedThreadNum samplePool ∧
    Pool.getMinThreadNum (run sampleCalls samplePool)
      ≤ Pool.getInitedThreadNum (run sampleCalls samplePool) ∧
    Pool.getInitedThreadNum (run sampleCalls samplePool)
      ≤ Pool.getMaxThreadNum (run sampleCalls samplePool) ∧
    0 ≤ Pool.getIdleThreadNum (run sampleCalls samplePool) ∧
    Pool.getIdleThreadNum (run sampleCalls samplePool)
      ≤ Pool.getInitedThreadNum (run sampleCalls samplePool) ∧
    Pool.getIdleThreadNum (run sampleCalls samplePool) = 0 ∧
    busyCount (run sampleCalls samplePool).workers = 0 ∧
    Pool.getInitedThreadNum (run sampleCalls samplePool) = 2 ∧
    quiescent (run sampleCalls samplePool).workers = false ∧
    Pool.getIdleThreadNum (run sampleCalls samplePool)
        + (busyCount (run sampleCalls samplePool).workers : Int)
      ≠ Pool.getInitedThreadNum (run sampleCalls samplePool) := by
  have hrun : run sampleCalls samplePool = sampleStretched := by
    simp only [sampleCalls, run, step]
    norm_num [Pool.pushTask, Pool.stretchPool, Pool.shrinkPool, secondsBetween, samplePool,
      sampleStretched, ThreadSafeQueue.push, freshWorker, List.replicate]
  rw [hrun]
  refine ⟨rfl, ?_, ?_, ?_, ?_, ?_, ?_, ?_, ?_, ?_, ?_, ?_, ?_, ?_⟩ <;> decide

/-- C6 amended: pool size invariant. In every state reachable from a successfully
constructed pool by any sequence of `pushTask`, `stretchPool`, `shrinkPool` calls (and of
setter calls, worker transitions and the start of the destructor),
`minThreads ≤ initedThreads ≤ maxThreads` with the bounds given at construction,
`0 ≤ idleThreads ≤ initedThreads`, the idle counter is the number of Idle workers, the
initialized counter is the number of worker slots, and at every quiescent observation
point (every worker Idle or Busy) idle plus busy workers equals initialized workers. -/
theorem pool_size_invariant (minNum maxNum : Int) (d : Defaults) (p0 : Pool)
    (acts : List Action) (h : (Pool.construct minNum maxNum d).1 = Except.ok p0) :
    Pool.getMinThreadNum (run acts p0) = minNum ∧
    Pool.getMaxThreadNum (run acts p0) = maxNum ∧
    Pool.getMinThreadNum (run acts p0) ≤ Pool.getInitedThreadNum (run acts p0) ∧
    Pool.getInitedThreadNum (run acts p0) ≤ Pool.getMaxThreadNum (run acts p0) ∧
    0 ≤ Pool.getIdleThreadNum (run acts p0) ∧
    Pool.getIdleThreadNum (run acts p0) ≤ Pool.getInitedThreadNum (run acts p0) ∧
    Pool.getIdleThreadNum (run acts p0) = (idleCount (run acts p0).workers : Int) ∧
    Pool.getInitedThreadNum (run acts p0) = ((run acts p0).workers.length : Int) ∧
    (quiescent (run acts p0).workers = true →
      Pool.getIdleThreadNum (run acts p0) + (busyCount (run acts p0).workers : Int)
        = Pool.getInitedThreadNum (run acts p0)) := by
  have hinv := Inv_run acts p0 (Inv_construct minNum maxNum d p0 h)
  obtain ⟨hb1, hb2⟩ := run_bounds acts p0
  have hp0 : p0._minThreadNum = minNum ∧ p0._maxThreadNum = maxNum := by
    unfold Pool.construct at h
    split_ifs at h with hbad
    simp only [Except.ok.injEq] at h
    subst h
    exact ⟨rfl, rfl⟩
  obtain ⟨hlen, hidle, hmin, hlo, hhi, _, _, _, _⟩ := hinv
  have hcount : idleCount (run acts p0).workers ≤ (run acts p0).workers.length := by
    unfold idleCount; exact List.countP_le_length _
  simp only [Pool.getMinThreadNum, Pool.getMaxThreadNum, Pool.getInitedThreadNum,
    Pool.getIdleThreadNum]
  refine ⟨by rw [hb1, hp0.1], by rw [hb2, hp0.2], hlo, hhi, by omega, by omega, hidle,
    hlen.symm, ?_⟩
  intro hq
  have := quiescent_counts _ hq
  omega

/-- Witness for C6 amended: the pool `ThreadPool(1, 2)` after the steps of `sampleGrowth`,
a quiescent point with two idle workers. -/
theorem pool_size_invariant_witness :
    (Pool.construct 1 2 sampleDefaults).1 = Except.ok samplePool ∧
    quiescent (run sampleGrowth samplePool).workers = true ∧
    Pool.getMinThreadNum (run sampleGrowth samplePool) = 1 ∧
    Pool.getMaxThreadNum (run sampleGrowth samplePool) = 2 ∧
    Pool.getMinThreadNum (run sampleGrowth samplePool)
      ≤ Pool.getInitedThreadNum (run sampleGrowth samplePool) ∧
    Pool.getInitedThreadNum (run sampleGrowth samplePool)
      ≤ Pool.getMaxThreadNum (run sampleGrowth samplePool) ∧
    0 ≤ Pool.getIdleThreadNum (run sampleGrowth samplePool) ∧
    Pool.getIdleThreadNum (run sampleGrowth samplePool)
      ≤ Pool.getInitedThreadNum (run sampleGrowth samplePool) ∧
    Pool.getIdleThreadNum (run sampleGrowth samplePool)
      = (idleCount (run sampleGrowth samplePool).workers : Int) ∧
    Pool.getInitedThreadNum (run sampleGrowth samplePool)
      = ((run sampleGrowth samplePool).workers.length : Int) ∧
    (quiescent (run sampleGrowth samplePool).workers = true →
      Pool.getIdleThreadNum (run sampleGrowth samplePool)
          + (busyCount (run sampleGrowth samplePool).workers : Int)
        = Pool.getInitedThreadNum (run sampleGrowth samplePool)) :=
  ⟨rfl, by decide, pool_size_invariant 1 2 sampleDefaults samplePool sampleGrowth rfl⟩

/-- C9: graceful teardown drains the queue. Take any run from a successfully constructed
pool in which the destructor begins after the steps `before`. The workers can always
bring the teardown to its end, so that the destructor returns; and whenever the
destructor has returned at the end of a run, the tasks accepted are exactly the ones
handed to `pushTask` before the destructor began, the queue is empty, no worker holds a
task, and the completed executions are those tasks, each as often as it was submitted. -/
theorem graceful_teardown_drains (minNum maxNum : Int) (d : Defaults) (p0 : Pool)
    (before : List Action)
    (h : (Pool.construct minNum maxNum d).1 = Except.ok p0)
    (hbefore : ∀ a ∈ before, Action.isDestructorBegin a = false) :
    (∃ after, Pool.destructorReturned
      (run (before ++ Action.destructorBegin :: after) p0) = true) ∧
    (∀ after, Pool.destructorReturned
        (run (before ++ Action.destructorBegin :: after) p0) = true →
      (run (before ++ Action.destructorBegin :: after) p0).submitted = pushedTasks before ∧
      (run (before ++ Action.destructorBegin :: after) p0)._taskQueue.q = [] ∧
      Pool.getTaskNum (run (before ++ Action.destructorBegin :: after) p0) = 0 ∧
      heldTasks (run (before ++ Action.destructorBegin :: after) p0).workers = [] ∧
      ((run (before ++ Action.destructorBegin :: after) p0).executed.map Prod.fst).Perm
        (pushedTasks before) ∧
      (run (before ++ Action.destructorBegin :: after) p0).executed.length
        = (pushedTasks before).length) := by
  have hinv0 := Inv_construct minNum maxNum d p0 h
  have hp0 : p0._isDone = false ∧ p0._isStop = false ∧ p0.submitted = [] := by
    unfold Pool.construct at h
    split_ifs at h with hbad
    simp only [Except.ok.injEq] at h
    subst h
    exact ⟨rfl, rfl, rfl⟩
  have hd : (step Action.destructorBegin (run before p0))._isDone = true := rfl
  constructor
  · obtain ⟨acts, hacts⟩ := teardown_can_return _ _ hd (le_refl _)
    refine ⟨acts, ?_⟩
    rw [run_append]
    exact hacts
  · intro after hret
    have hsub : (run (before ++ Action.destructorBegin :: after) p0).submitted
        = pushedTasks before := by
      obtain ⟨_, _, b3⟩ := run_before_destructor before p0 hbefore hp0.1 hp0.2.1
      rw [run_append]
      simp only [run]
      rw [(run_after_destructor after _ hd).2]
      show (run before p0).submitted = pushedTasks before
      rw [b3, hp0.2.2, List.nil_append]
    obtain ⟨hq, hheld, hperm⟩ := drained_of_returned _ (Inv_run _ p0 hinv0) hret
    rw [hsub] at hperm
    refine ⟨hsub, hq, by simp [Pool.getTaskNum, ThreadSafeQueue.size, hq], hheld, hperm, ?_⟩
    have := hperm.length_eq
    simpa using this

/-- Witness for C9: on `ThreadPool(1, 2)` tasks 7 and 8 are pushed and run by the two
workers, task 9 is pushed after the destructor began and is rejected, and the destructor
returns with 7 and 8 executed once each. -/
theorem graceful_teardown_drains_witness :
    (Pool.construct 1 2 sampleDefaults).1 = Except.ok samplePool ∧
    (∀ a ∈ sampleTeardown, Action.isDestructorBegin a = false) ∧
    Pool.destructorReturned
      (run (sampleTeardown ++ Action.destructorBegin :: sampleTeardownRest) samplePool)
      = true ∧
    (run (sampleTeardown ++ Action.destructorBegin :: sampleTeardownRest) samplePool).executed
      = [(8, 0), (7, 1)] ∧
    (run (sampleTeardown ++ Action.destructorBegin :: sampleTeardownRest)
        samplePool).submitted = pushedTasks sampleTeardown ∧
    (run (sampleTeardown ++ Action.destructorBegin :: sampleTeardownRest)
        samplePool)._taskQueue.q = [] ∧
    Pool.getTaskNum (run (sampleTeardown ++ Action.destructorBegin :: sampleTeardownRest)
        samplePool) = 0 ∧
    heldTasks (run (sampleTeardown ++ Action.destructorBegin :: sampleTeardownRest)
        samplePool).workers = [] ∧
    ((run (sampleTeardown ++ Action.destructorBegin :: sampleTeardownRest)
        samplePool).executed.map Prod.fst).Perm (pushedTasks sampleTeardown) ∧
    (run (sampleTeardown ++ Action.destructorBegin :: sampleTeardownRest)
        samplePool).executed.length = (pushedTasks sampleTeardown).length :=
  ⟨rfl, by decide, by decide, by decide,
    (graceful_teardown_drains 1 2 sampleDefaults samplePool sampleTeardown
      rfl (by decide)).2 sampleTeardownRest (by decide)⟩

end ThreadPool
